import Mathlib

/-!
Shallow embedding of the core algorithms of the Memora repository
(`backend/app/core/intelligence/spaced_repetition.py`,
`backend/app/core/retrieval/search.py`,
`backend/app/core/embedding/service.py`) and proofs of the spec claims.

Modelling conventions:
* Python `datetime` values are integers counting seconds since an epoch;
  `timedelta(days = n)` is `86400 * n`, `(a - b).days` is `(a - b).fdiv 86400`
  (Python's `timedelta.days` floors toward minus infinity) and
  `dt.date()` is `dt.fdiv 86400`.
* Python floats are modelled as exact rationals (`ℚ`) where the code only
  adds, multiplies, divides and compares, and as reals (`ℝ`) where the code
  calls `math.exp`.
* Python `round` is round-half-to-even (`pyRound` below).
* `list.sort(key = ..., reverse = True)` is `List.mergeSort` with the
  "greater or equal score" comparator (both are stable sorts).
-/

/-- `round` as Python defines it: to the nearest integer, halves to even. -/
def pyRound (q : ℚ) : ℤ :=
  let f := ⌊q⌋
  if q - f < 1/2 then f
  else if 1/2 < q - f then f + 1
  else if f % 2 = 0 then f else f + 1

/-- `MemoryStrength` enum from `spaced_repetition.py`. -/
inductive MemoryStrength where
  | fresh
  | strong
  | moderate
  | weak
  | fading
deriving DecidableEq, Repr

/-- `ReviewDifficulty` enum from `spaced_repetition.py`. -/
inductive ReviewDifficulty where
  | easy
  | good
  | hard
  | forgot
deriving DecidableEq, Repr

/-- The `.value` of each `ReviewDifficulty` member (EASY=4, GOOD=3, HARD=2, FORGOT=1). -/
def ReviewDifficulty.value : ReviewDifficulty → ℤ
  | .easy => 4
  | .good => 3
  | .hard => 2
  | .forgot => 1

/-- The `MemoryHealth` record of `spaced_repetition.py` (the `memory_id` field is
dropped: it never influences the algorithms). Timestamps are seconds. -/
structure MemoryHealth where
  ease_factor : ℚ
  interval_days : ℤ
  repetitions : ℕ
  last_review : Option ℤ
  next_review : ℤ
  strength : MemoryStrength
  importance : ℚ
  access_count : ℕ
  last_accessed : Option ℤ
deriving Repr

/-- `MemoryHealth.__init__` defaults together with
`SpacedRepetitionService.initialize_memory`: ease 2.5, interval 1, repetitions 0,
`last_review = now`, `next_review = now + 1 day`, strength fresh. -/
def initialize_memory (now : ℤ) (importance : ℚ := 1/2) : MemoryHealth :=
  { ease_factor := 5/2
    interval_days := 1
    repetitions := 0
    last_review := some now
    next_review := now + 86400
    strength := .fresh
    importance := importance
    access_count := 0
    last_accessed := none }

/-- `MemoryHealth.calculate_retention_score`, evaluated at time `now`:
`R = exp(-days_since_review / stability)` with
`stability = interval_days * (ease_factor / 2.5)`, the 0.5 guards for a missing
`last_review` and for `stability ≤ 0`, and the final clamp to `[0, 1]`. -/
noncomputable def calculate_retention_score (h : MemoryHealth) (now : ℤ) : ℝ :=
  match h.last_review with
  | none => 1/2
  | some lr =>
    let days_since_review : ℤ := (now - lr).fdiv 86400
    let stability : ℚ := (h.interval_days : ℚ) * (h.ease_factor / (5/2))
    if stability ≤ 0 then 1/2
    else max 0 (min 1 (Real.exp (-(days_since_review : ℝ) / (stability : ℝ))))

/-- The strength thresholds of `MemoryHealth.update_strength`. -/
noncomputable def classifyStrength (score : ℝ) : MemoryStrength :=
  if 9/10 < score then .fresh
  else if 7/10 < score then .strong
  else if 1/2 < score then .moderate
  else if 3/10 < score then .weak
  else .fading

/-- `MemoryHealth.update_strength`, evaluated at time `now`. -/
noncomputable def update_strength (h : MemoryHealth) (now : ℤ) : MemoryHealth :=
  { h with strength := classifyStrength (calculate_retention_score h now) }

/-- The pair `to_dict` reports that claim C8 is about: the stored `strength`
field next to the freshly computed `retention_score`. -/
noncomputable def to_dict_strength_retention (h : MemoryHealth) (now : ℤ) :
    MemoryStrength × ℝ :=
  (h.strength, calculate_retention_score h now)

/-- `SpacedRepetitionService.record_review` restricted to one health record
(the tracked case; the untracked case composes `initialize_memory` first).
The SM-2 interval/repetition update, then the ease-factor update (reading the
pre-update ease, as the code does), then `last_review`/`next_review`, then
`update_strength`. -/
noncomputable def record_review (h : MemoryHealth) (difficulty : ReviewDifficulty)
    (now : ℤ) : MemoryHealth :=
  let quality := difficulty.value
  let h1 :=
    if 3 ≤ quality then
      { h with
        interval_days :=
          if h.repetitions = 0 then 1
          else if h.repetitions = 1 then 6
          else pyRound ((h.interval_days : ℚ) * h.ease_factor)
        repetitions := h.repetitions + 1 }
    else
      { h with repetitions := 0, interval_days := 1 }
  let h2 :=
    { h1 with
      ease_factor :=
        max (13/10)
          (h1.ease_factor + 1/10
            - (5 - (quality : ℚ)) * (2/25 + (5 - (quality : ℚ)) * (1/50)))
      last_review := some now
      next_review := now + 86400 * h1.interval_days }
  update_strength h2 now

/-- `SpacedRepetitionService.record_access`: bump the access counter, and if the
stored strength is weak or fading, shrink the interval by one day (floor 1) and
reschedule. -/
def record_access (h : MemoryHealth) (now : ℤ) : MemoryHealth :=
  let h1 := { h with access_count := h.access_count + 1, last_accessed := some now }
  if h1.strength = .weak ∨ h1.strength = .fading then
    { h1 with
      interval_days := max 1 (h1.interval_days - 1)
      next_review := now + 86400 * max 1 (h1.interval_days - 1) }
  else h1

/-- A sequence of reviews folded over a health record (difficulty, time). -/
noncomputable def fold_reviews (h : MemoryHealth) (l : List (ReviewDifficulty × ℤ)) :
    MemoryHealth :=
  l.foldl (fun acc p => record_review acc p.1 p.2) h

/-- The successive `interval_days` values produced by reviewing with GOOD at the
given times. -/
noncomputable def good_intervals (h : MemoryHealth) : List ℤ → List ℤ
  | [] => []
  | t :: ts =>
    let h1 := record_review h .good t
    h1.interval_days :: good_intervals h1 ts

/-- The data-model invariant of `MemoryHealth` (§3 of the spec): interval at
least one day, ease factor at least 1.3. -/
def HealthInv (h : MemoryHealth) : Prop :=
  1 ≤ h.interval_days ∧ 13/10 ≤ h.ease_factor

/-! ### Basic unfolding lemmas -/

theorem update_strength_ease (h : MemoryHealth) (now : ℤ) :
    (update_strength h now).ease_factor = h.ease_factor := rfl

theorem update_strength_interval (h : MemoryHealth) (now : ℤ) :
    (update_strength h now).interval_days = h.interval_days := rfl

theorem update_strength_repetitions (h : MemoryHealth) (now : ℤ) :
    (update_strength h now).repetitions = h.repetitions := rfl

theorem retention_ignores_strength (h : MemoryHealth) (s : MemoryStrength) (now : ℤ) :
    calculate_retention_score { h with strength := s } now
      = calculate_retention_score h now := rfl

theorem record_review_ease (h : MemoryHealth) (d : ReviewDifficulty) (t : ℤ) :
    (record_review h d t).ease_factor
      = max (13/10)
          (h.ease_factor + 1/10
            - (5 - (d.value : ℚ)) * (2/25 + (5 - (d.value : ℚ)) * (1/50))) := by
  cases d <;> rfl

theorem record_review_repetitions (h : MemoryHealth) (d : ReviewDifficulty) (t : ℤ) :
    (record_review h d t).repetitions
      = if 3 ≤ d.value then h.repetitions + 1 else 0 := by
  cases d <;> rfl

theorem record_review_interval (h : MemoryHealth) (d : ReviewDifficulty) (t : ℤ) :
    (record_review h d t).interval_days
      = if 3 ≤ d.value then
          (if h.repetitions = 0 then 1
           else if h.repetitions = 1 then 6
           else pyRound ((h.interval_days : ℚ) * h.ease_factor))
        else 1 := by
  cases d <;> rfl

/-! ### Arithmetic facts about `pyRound` -/

theorem le_pyRound (q : ℚ) : q - 1/2 ≤ (pyRound q : ℚ) := by
  simp only [pyRound]
  have h1 : (⌊q⌋ : ℚ) ≤ q := Int.floor_le q
  have h2 : q < ⌊q⌋ + 1 := Int.lt_floor_add_one q
  split_ifs <;> push_cast <;> linarith

theorem interval_le_pyRound {i : ℤ} (hi : 1 ≤ i) {e : ℚ} (he : 13/10 ≤ e) :
    i ≤ pyRound ((i : ℚ) * e) := by
  have h1 := le_pyRound ((i : ℚ) * e)
  have hiq : (1 : ℚ) ≤ (i : ℚ) := by exact_mod_cast hi
  have h3 : ((i : ℚ)) - 1 < (pyRound ((i : ℚ) * e) : ℚ) := by nlinarith
  have h4 : (i - 1 : ℤ) < pyRound ((i : ℚ) * e) := by exact_mod_cast h3
  omega

/-! ### C7: the ease-factor update and its floor -/

theorem ease_floor_after_review (l : List (ReviewDifficulty × ℤ)) :
    ∀ (h : MemoryHealth) (d : ReviewDifficulty) (t : ℤ),
      13/10 ≤ (fold_reviews (record_review h d t) l).ease_factor := by
  induction l with
  | nil =>
    intro h d t
    show 13/10 ≤ (record_review h d t).ease_factor
    rw [record_review_ease]
    exact le_max_left _ _
  | cons p ps ih =>
    intro h d t
    show 13/10 ≤ (fold_reviews (record_review (record_review h d t) p.1 p.2) ps).ease_factor
    exact ih (record_review h d t) p.1 p.2

/-- C7: after every `record_review` call the ease factor equals
`max(1.3, ease + 0.1 - (5-quality)*(0.08 + (5-quality)*0.02))` applied to the
previous ease, and along any sequence of reviews (any difficulties, any times)
the ease factor after each call never falls below 1.3. -/
theorem ease_factor_formula_and_floor (h : MemoryHealth) (d : ReviewDifficulty)
    (t : ℤ) (l : List (ReviewDifficulty × ℤ)) :
    (record_review h d t).ease_factor
        = max (13/10)
            (h.ease_factor + 1/10
              - (5 - (d.value : ℚ)) * (2/25 + (5 - (d.value : ℚ)) * (1/50)))
    ∧ 13/10 ≤ (fold_reviews (record_review h d t) l).ease_factor :=
  ⟨record_review_ease h d t, ease_floor_after_review l h d t⟩

/-! ### C4: first review of an untracked memory with EASY -/

/-- C4 counterexample: reviewing a freshly initialized (untracked) memory with
EASY yields `ease_factor = 2.5` exactly — `2.5 + 0.1 - 1*(0.08 + 0.02) = 2.5` —
so the claimed `ease_factor > 2.5` is false. -/
theorem untracked_easy_review_ease_not_gt :
    ¬ (5/2 < (record_review (initialize_memory 0) .easy 0).ease_factor) := by
  have he : (record_review (initialize_memory 0) .easy 0).ease_factor = 5/2 := by
    rw [record_review_ease]
    norm_num [ReviewDifficulty.value, initialize_memory, max_def]
  rw [he]
  exact lt_irrefl _

/-- C4 amended: for every untracked memory id (hence every initialization time
and importance), `record_review(memory_id, EASY)` returns a `MemoryHealth` with
`repetitions = 1`, `interval_days = 1` and `ease_factor = 2.5` (not `> 2.5`:
at quality 4 the SM-2 ease delta is exactly zero). -/
theorem untracked_easy_review_values (now : ℤ) (importance : ℚ) :
    (record_review (initialize_memory now importance) .easy now).repetitions = 1
    ∧ (record_review (initialize_memory now importance) .easy now).interval_days = 1
    ∧ (record_review (initialize_memory now importance) .easy now).ease_factor = 5/2 := by
  refine ⟨?_, ?_, ?_⟩
  · rw [record_review_repetitions]
    norm_num [ReviewDifficulty.value, initialize_memory]
  · rw [record_review_interval]
    norm_num [ReviewDifficulty.value, initialize_memory]
  · rw [record_review_ease]
    norm_num [ReviewDifficulty.value, initialize_memory, max_def]

/-! ### C1: the SM-2 update and interval monotonicity under GOOD reviews -/

theorem record_review_inv (h : MemoryHealth) (d : ReviewDifficulty) (t : ℤ)
    (hI : HealthInv h) : HealthInv (record_review h d t) := by
  obtain ⟨hi, he⟩ := hI
  constructor
  · rw [record_review_interval]
    split_ifs
    · exact le_refl 1
    · norm_num
    · exact le_trans hi (interval_le_pyRound hi he)
    · exact le_refl 1
  · rw [record_review_ease]
    exact le_max_left _ _

theorem good_good_interval_mono (h : MemoryHealth) (t1 t2 : ℤ) (hI : HealthInv h) :
    (record_review h .good t1).interval_days
      ≤ (record_review (record_review h .good t1) .good t2).interval_days := by
  obtain ⟨hi1, he1⟩ := record_review_inv h .good t1 hI
  have hreps : (record_review h .good t1).repetitions = h.repetitions + 1 := by
    rw [record_review_repetitions]
    norm_num [ReviewDifficulty.value]
  rw [record_review_interval (record_review h .good t1) .good t2]
  rw [if_pos (by norm_num [ReviewDifficulty.value] : (3:ℤ) ≤ ReviewDifficulty.good.value)]
  rcases Nat.eq_zero_or_pos h.repetitions with h0 | hpos
  · have hL : (record_review h .good t1).interval_days = 1 := by
      rw [record_review_interval]
      simp [ReviewDifficulty.value, h0]
    rw [hreps, h0, hL]
    norm_num
  · have hne0 : (record_review h .good t1).repetitions ≠ 0 := by
      rw [hreps]; omega
    have hne1 : (record_review h .good t1).repetitions ≠ 1 := by
      rw [hreps]; omega
    rw [if_neg hne0, if_neg hne1]
    exact le_trans (le_refl _) (interval_le_pyRound hi1 he1)

theorem good_intervals_chain (ts : List ℤ) :
    ∀ h : MemoryHealth, HealthInv h → List.Chain' (· ≤ ·) (good_intervals h ts) := by
  induction ts with
  | nil =>
    intro h _
    simp [good_intervals]
  | cons t ts' ih =>
    intro h hI
    have hI1 := record_review_inv h .good t hI
    cases ts' with
    | nil =>
      simp [good_intervals]
    | cons t2 ts2 =>
      show List.Chain' (· ≤ ·)
        ((record_review h .good t).interval_days
          :: (record_review (record_review h .good t) .good t2).interval_days
          :: good_intervals (record_review (record_review h .good t) .good t2) ts2)
      rw [List.chain'_cons]
      exact ⟨good_good_interval_mono h t t2 hI, ih (record_review h .good t) hI1⟩

/-- C1: `record_review` implements the SM-2 update. For quality ≥ 3 the new
interval is 1 / 6 / `round(interval * ease)` by repetition count and the
repetition count is incremented; for quality < 3 repetitions reset to 0 and the
interval to 1. Consequently, for any health satisfying the data-model invariant
(interval ≥ 1, ease ≥ 1.3), repeated GOOD reviews yield a non-decreasing
sequence of `interval_days`, and a single FORGOT after any GOOD streak resets
repetitions to 0 and `interval_days` to 1. -/
theorem sm2_update_and_good_monotonicity :
    (∀ (h : MemoryHealth) (d : ReviewDifficulty) (t : ℤ), 3 ≤ d.value →
        (record_review h d t).interval_days
          = (if h.repetitions = 0 then 1
             else if h.repetitions = 1 then 6
             else pyRound ((h.interval_days : ℚ) * h.ease_factor))
        ∧ (record_review h d t).repetitions = h.repetitions + 1)
    ∧ (∀ (h : MemoryHealth) (d : ReviewDifficulty) (t : ℤ), d.value < 3 →
        (record_review h d t).repetitions = 0
        ∧ (record_review h d t).interval_days = 1)
    ∧ (∀ (h : MemoryHealth) (ts : List ℤ), HealthInv h →
        List.Chain' (· ≤ ·) (good_intervals h ts))
    ∧ (∀ (h : MemoryHealth) (ts : List ℤ) (t : ℤ),
        (record_review
            (fold_reviews h (ts.map (fun t0 => (ReviewDifficulty.good, t0))))
            .forgot t).repetitions = 0
        ∧ (record_review
            (fold_reviews h (ts.map (fun t0 => (ReviewDifficulty.good, t0))))
            .forgot t).interval_days = 1) := by
  refine ⟨?_, ?_, ?_, ?_⟩
  · intro h d t hq
    rw [record_review_interval, record_review_repetitions, if_pos hq, if_pos hq]
    exact ⟨rfl, rfl⟩
  · intro h d t hq
    rw [record_review_interval, record_review_repetitions,
      if_neg (not_le.mpr hq), if_neg (not_le.mpr hq)]
    exact ⟨rfl, rfl⟩
  · intro h ts hI
    exact good_intervals_chain ts h hI
  · intro h ts t
    constructor
    · rw [record_review_repetitions]
      norm_num [ReviewDifficulty.value]
    · rw [record_review_interval]
      norm_num [ReviewDifficulty.value]

/-- Witness for C1 at concrete inputs: a fresh health reviewed GOOD has its
repetition count incremented; from a fresh health three GOOD reviews give a
non-decreasing interval sequence; a FORGOT after a two-GOOD streak resets. -/
theorem sm2_update_and_good_monotonicity_witness :
    ((record_review (initialize_memory 0) .good 0).repetitions
        = (initialize_memory 0).repetitions + 1)
    ∧ List.Chain' (· ≤ ·) (good_intervals (initialize_memory 0) [0, 86400, 172800])
    ∧ (record_review
        (fold_reviews (initialize_memory 0)
          ([0, 86400].map (fun t0 => (ReviewDifficulty.good, t0))))
        .forgot 259200).repetitions = 0 :=
  ⟨(sm2_update_and_good_monotonicity.1 (initialize_memory 0) .good 0 (by decide)).2,
   sm2_update_and_good_monotonicity.2.2.1 (initialize_memory 0) [0, 86400, 172800]
     (by constructor <;> norm_num [initialize_memory]),
   (sm2_update_and_good_monotonicity.2.2.2 (initialize_memory 0) [0, 86400] 259200).1⟩

/-! ### C2: the retention score -/

theorem fdiv_86400_nonneg {a : ℤ} (ha : 0 ≤ a) : 0 ≤ a.fdiv 86400 := by
  rw [Int.fdiv_eq_ediv _ (by norm_num)]
  exact Int.ediv_nonneg ha (by norm_num)

theorem fdiv_86400_mono {a b : ℤ} (hab : a ≤ b) : a.fdiv 86400 ≤ b.fdiv 86400 := by
  rw [Int.fdiv_eq_ediv _ (by norm_num), Int.fdiv_eq_ediv _ (by norm_num)]
  exact Int.ediv_le_ediv (by norm_num) hab

/-- C2: `calculate_retention_score` returns 0.5 when `last_review` is absent or
`stability = interval_days * (ease/2.5)` is non-positive; when stability is
positive and the evaluation time is at or after `last_review` it returns
exactly `exp(-days_since_last_review / stability)` (the clamp is inactive
there); the result always lies in `[0, 1]`; and for a fixed health it is
non-increasing in the evaluation time. -/
theorem retention_score_spec :
    (∀ (h : MemoryHealth) (now : ℤ), h.last_review = none →
        calculate_retention_score h now = 1/2)
    ∧ (∀ (h : MemoryHealth) (now lr : ℤ), h.last_review = some lr →
        (h.interval_days : ℚ) * (h.ease_factor / (5/2)) ≤ 0 →
        calculate_retention_score h now = 1/2)
    ∧ (∀ (h : MemoryHealth) (now lr : ℤ), h.last_review = some lr →
        0 < (h.interval_days : ℚ) * (h.ease_factor / (5/2)) → lr ≤ now →
        calculate_retention_score h now
          = Real.exp (-(((now - lr).fdiv 86400 : ℤ) : ℝ)
              / (((h.interval_days : ℚ) * (h.ease_factor / (5/2)) : ℚ) : ℝ)))
    ∧ (∀ (h : MemoryHealth) (now : ℤ),
        0 ≤ calculate_retention_score h now ∧ calculate_retention_score h now ≤ 1)
    ∧ (∀ (h : MemoryHealth) (lr t1 t2 : ℤ), h.last_review = some lr →
        lr ≤ t1 → t1 < t2 →
        calculate_retention_score h t2 ≤ calculate_retention_score h t1) := by
  refine ⟨?_, ?_, ?_, ?_, ?_⟩
  · intro h now hlr
    simp only [calculate_retention_score, hlr]
  · intro h now lr hlr hs
    simp only [calculate_retention_score, hlr]
    rw [if_pos hs]
  · intro h now lr hlr hs hle
    simp only [calculate_retention_score, hlr]
    rw [if_neg (not_le.mpr hs)]
    have hd : (0 : ℤ) ≤ (now - lr).fdiv 86400 :=
      fdiv_86400_nonneg (by omega)
    have hsR : (0 : ℝ) < (((h.interval_days : ℚ) * (h.ease_factor / (5/2)) : ℚ) : ℝ) := by
      exact_mod_cast hs
    have hx : -(((now - lr).fdiv 86400 : ℤ) : ℝ)
        / (((h.interval_days : ℚ) * (h.ease_factor / (5/2)) : ℚ) : ℝ) ≤ 0 := by
      apply div_nonpos_of_nonpos_of_nonneg
      · simp only [neg_nonpos]
        exact_mod_cast hd
      · exact hsR.le
    rw [min_eq_right (Real.exp_le_one_iff.mpr hx),
      max_eq_right (Real.exp_pos _).le]
  · intro h now
    cases hlr : h.last_review with
    | none =>
      simp only [calculate_retention_score, hlr]
      norm_num
    | some lr =>
      simp only [calculate_retention_score, hlr]
      split_ifs
      · norm_num
      · constructor
        · exact le_max_left 0 _
        · exact max_le (by norm_num) (min_le_left 1 _)
  · intro h lr t1 t2 hlr h1 h12
    simp only [calculate_retention_score, hlr]
    split_ifs
    · exact le_refl _
    · have hspos : (0 : ℚ) < (h.interval_days : ℚ) * (h.ease_factor / (5/2)) := by
        push_neg at *
        assumption
      have hsR : (0 : ℝ) < (((h.interval_days : ℚ) * (h.ease_factor / (5/2)) : ℚ) : ℝ) := by
        exact_mod_cast hspos
      have hdmono : (t1 - lr).fdiv 86400 ≤ (t2 - lr).fdiv 86400 :=
        fdiv_86400_mono (by omega)
      have hdR : (((t1 - lr).fdiv 86400 : ℤ) : ℝ) ≤ (((t2 - lr).fdiv 86400 : ℤ) : ℝ) := by
        exact_mod_cast hdmono
      have hxle : -(((t2 - lr).fdiv 86400 : ℤ) : ℝ)
            / (((h.interval_days : ℚ) * (h.ease_factor / (5/2)) : ℚ) : ℝ)
          ≤ -(((t1 - lr).fdiv 86400 : ℤ) : ℝ)
            / (((h.interval_days : ℚ) * (h.ease_factor / (5/2)) : ℚ) : ℝ) :=
        (div_le_div_iff_of_pos_right hsR).mpr (neg_le_neg hdR)
      exact max_le_max (le_refl 0)
        (min_le_min (le_refl 1) (Real.exp_le_exp.mpr hxle))

/-- Witness for C2 at concrete inputs: the degenerate guards fire on a missing
`last_review` and on a zero interval; one day after a fresh initialization the
score is exactly `exp(-1)`; and the score one day out dominates the score two
days out. -/
theorem retention_score_spec_witness :
    calculate_retention_score { initialize_memory 0 with last_review := none } 5 = 1/2
    ∧ calculate_retention_score { initialize_memory 0 with interval_days := 0 } 5 = 1/2
    ∧ calculate_retention_score (initialize_memory 0) 86400 = Real.exp (-1)
    ∧ calculate_retention_score (initialize_memory 0) 172800
        ≤ calculate_retention_score (initialize_memory 0) 86400 := by
  refine ⟨?_, ?_, ?_, ?_⟩
  · exact retention_score_spec.1 _ 5 rfl
  · exact retention_score_spec.2.1 _ 5 0 rfl (by norm_num [initialize_memory])
  · have h := retention_score_spec.2.2.1 (initialize_memory 0) 86400 0 rfl
      (by norm_num [initialize_memory]) (by decide)
    rw [h]
    norm_num [initialize_memory]
  · exact retention_score_spec.2.2.2.2 (initialize_memory 0) 0 86400 172800 rfl
      (by decide) (by decide)

/-! ### C8: strength versus the freshly computed retention score -/

theorem exp_neg_ten_le : Real.exp (-10) ≤ 3/10 := by
  rw [Real.exp_neg]
  have h11 : (11 : ℝ) ≤ Real.exp 10 := by
    have := Real.add_one_le_exp (10 : ℝ)
    linarith
  have hinv : (Real.exp 10)⁻¹ ≤ (11 : ℝ)⁻¹ := by
    apply inv_anti₀ (by norm_num) h11
  have : ((11 : ℝ))⁻¹ ≤ 3/10 := by norm_num
  linarith

theorem retention_init_at_zero : calculate_retention_score (initialize_memory 0) 0 = 1 := by
  have h := retention_score_spec.2.2.1 (initialize_memory 0) 0 0 rfl
    (by norm_num [initialize_memory]) (by decide)
  rw [h]
  have h00 : ((0 : ℤ) - 0).fdiv 86400 = 0 := by decide
  rw [h00]
  norm_num [initialize_memory, Real.exp_zero]

theorem retention_init_at_ten_days :
    calculate_retention_score (initialize_memory 0) 864000 = Real.exp (-10) := by
  have h := retention_score_spec.2.2.1 (initialize_memory 0) 864000 0 rfl
    (by norm_num [initialize_memory]) (by decide)
  rw [h]
  have h10 : ((864000 : ℤ) - 0).fdiv 86400 = 10 := by decide
  rw [h10]
  norm_num [initialize_memory]

theorem classify_exp_neg_ten : classifyStrength (Real.exp (-10)) = MemoryStrength.fading := by
  have hle := exp_neg_ten_le
  unfold classifyStrength
  rw [if_neg (not_lt.mpr (by linarith)), if_neg (not_lt.mpr (by linarith)),
    if_neg (not_lt.mpr (by linarith)), if_neg (not_lt.mpr (by linarith))]

/-- C8 counterexample: a health record whose strength was recomputed at review
time (time 0, retention 1, strength `fresh`) and is then read through `to_dict`
ten days later reports the stored strength `fresh` next to a retention score of
`exp(-10)`, which classifies as `fading` — the stored strength has drifted from
the retention score `to_dict` itself returns. -/
theorem to_dict_strength_drifts :
    ¬ ((to_dict_strength_retention (update_strength (initialize_memory 0) 0) 864000).1
        = classifyStrength
            ((to_dict_strength_retention (update_strength (initialize_memory 0) 0) 864000).2)) := by
  intro hEq
  have h1 : (to_dict_strength_retention (update_strength (initialize_memory 0) 0) 864000).1
      = MemoryStrength.fresh := by
    show classifyStrength (calculate_retention_score (initialize_memory 0) 0) = _
    rw [retention_init_at_zero]
    unfold classifyStrength
    rw [if_pos (by norm_num : (9 : ℝ)/10 < 1)]
  have h2 : (to_dict_strength_retention (update_strength (initialize_memory 0) 0) 864000).2
      = Real.exp (-10) := retention_init_at_ten_days
  rw [h1, h2, classify_exp_neg_ten] at hEq
  exact absurd hEq (by decide)

/-- C8 amended: the strength category matches the classification of the
retention score exactly at the moments the code recomputes it —
`update_strength` establishes the match at its call time, and `record_review`
(which ends in `update_strength` after setting `last_review = now`) returns a
health whose strength equals the classification of its retention score at the
review time. `to_dict` and `record_access`, however, read the stored strength
without recomputation, so between reviews the stored strength can lag the
current retention score (see the counterexample). -/
theorem strength_matches_retention_when_recomputed :
    (∀ (h : MemoryHealth) (t : ℤ),
        (update_strength h t).strength
          = classifyStrength (calculate_retention_score (update_strength h t) t))
    ∧ (∀ (h : MemoryHealth) (d : ReviewDifficulty) (t : ℤ),
        (record_review h d t).strength
          = classifyStrength (calculate_retention_score (record_review h d t) t)) := by
  constructor
  · intro h t
    rfl
  · intro h d t
    cases d <;> rfl

/-! ### C9: dashboard due-today / overdue counting -/

/-- `datetime.date()` in the seconds model: the UTC calendar day index. -/
def dateOf (t : ℤ) : ℤ := t.fdiv 86400

/-- The due/overdue counting loop of
`SpacedRepetitionService.get_memory_health_dashboard`: for each tracked health,
if `next_review <= now` then it counts as due-today when `next_review.date()
== now.date()` and as overdue otherwise. Returns `(due_today, overdue_count)`. -/
def dashboard_due_counts (healths : List MemoryHealth) (now : ℤ) : ℕ × ℕ :=
  healths.foldl
    (fun acc h =>
      if h.next_review ≤ now then
        if dateOf h.next_review = dateOf now then (acc.1 + 1, acc.2)
        else (acc.1, acc.2 + 1)
      else acc)
    (0, 0)

theorem code_due_today_iff (x now : ℤ) :
    (x ≤ now ∧ dateOf x = dateOf now) ↔ (86400 * dateOf now ≤ x ∧ x ≤ now) := by
  unfold dateOf
  rw [Int.fdiv_eq_ediv _ (by norm_num), Int.fdiv_eq_ediv _ (by norm_num)]
  constructor
  · rintro ⟨hle, heq⟩
    refine ⟨?_, hle⟩
    have h1 : now / 86400 ≤ x / 86400 := le_of_eq heq.symm
    have h2 := (Int.le_ediv_iff_mul_le (by norm_num : (0:ℤ) < 86400)).mp h1
    linarith
  · rintro ⟨hge, hle⟩
    refine ⟨hle, ?_⟩
    have h1 : now / 86400 ≤ x / 86400 :=
      (Int.le_ediv_iff_mul_le (by norm_num)).mpr (by linarith)
    have h2 : x / 86400 ≤ now / 86400 := Int.ediv_le_ediv (by norm_num) hle
    omega

theorem code_overdue_iff (x now : ℤ) :
    (x ≤ now ∧ dateOf x ≠ dateOf now) ↔ x < 86400 * dateOf now := by
  unfold dateOf
  rw [Int.fdiv_eq_ediv _ (by norm_num), Int.fdiv_eq_ediv _ (by norm_num)]
  constructor
  · rintro ⟨hle, hne⟩
    have h2 : x / 86400 ≤ now / 86400 := Int.ediv_le_ediv (by norm_num) hle
    have h3 : x / 86400 < now / 86400 := lt_of_le_of_ne h2 hne
    have h4 := (Int.ediv_lt_iff_lt_mul (by norm_num : (0:ℤ) < 86400)).mp h3
    linarith
  · intro hlt
    have h1 : x / 86400 < now / 86400 :=
      (Int.ediv_lt_iff_lt_mul (by norm_num)).mpr (by linarith)
    have h2 : (now / 86400) * 86400 ≤ now :=
      (Int.le_ediv_iff_mul_le (by norm_num)).mp (le_refl _)
    exact ⟨by linarith, ne_of_lt h1⟩

theorem dashboard_foldl_eq (now : ℤ) (healths : List MemoryHealth) :
    ∀ (a b : ℕ),
      healths.foldl
        (fun acc h =>
          if h.next_review ≤ now then
            if dateOf h.next_review = dateOf now then (acc.1 + 1, acc.2)
            else (acc.1, acc.2 + 1)
          else acc)
        (a, b)
      = (a + healths.countP
            (fun h => decide (h.next_review ≤ now ∧ dateOf h.next_review = dateOf now)),
         b + healths.countP
            (fun h => decide (h.next_review ≤ now ∧ dateOf h.next_review ≠ dateOf now))) := by
  induction healths with
  | nil =>
    intro a b
    simp
  | cons h hs ih =>
    intro a b
    rw [List.foldl_cons]
    by_cases h1 : h.next_review ≤ now
    · by_cases h2 : dateOf h.next_review = dateOf now
      · rw [if_pos h1, if_pos h2, ih (a + 1) b]
        simp only [List.countP_cons, decide_eq_true_eq, Prod.mk.injEq]
        have hA : h.next_review ≤ now ∧ dateOf h.next_review = dateOf now := ⟨h1, h2⟩
        have hB : ¬ (h.next_review ≤ now ∧ dateOf h.next_review ≠ dateOf now) :=
          fun hc => hc.2 h2
        rw [if_pos hA, if_neg hB]
        omega
      · rw [if_pos h1, if_neg h2, ih a (b + 1)]
        simp only [List.countP_cons, decide_eq_true_eq, Prod.mk.injEq]
        have hA : ¬ (h.next_review ≤ now ∧ dateOf h.next_review = dateOf now) :=
          fun hc => h2 hc.2
        have hB : h.next_review ≤ now ∧ dateOf h.next_review ≠ dateOf now := ⟨h1, h2⟩
        rw [if_neg hA, if_pos hB]
        omega
    · rw [if_neg h1, ih a b]
      simp only [List.countP_cons, decide_eq_true_eq, Prod.mk.injEq]
      have hA : ¬ (h.next_review ≤ now ∧ dateOf h.next_review = dateOf now) :=
        fun hc => h1 hc.1
      have hB : ¬ (h.next_review ≤ now ∧ dateOf h.next_review ≠ dateOf now) :=
        fun hc => h1 hc.1
      rw [if_neg hA, if_neg hB]
      omega

/-- C9 counterexample: with one tracked item whose `next_review` is 23:00 of
day 0 (second 82800) evaluated at 12:00 of day 1 (second 129600), the
dashboard's `overdue_reviews` is 1 — the item's calendar date differs from
today's — although `next_review < now - 1 day` is false (129600 - 86400 =
43200 < 82800), so the spec's overdue count is 0. -/
theorem dashboard_overdue_disagrees_with_spec :
    ¬ ((dashboard_due_counts
          [⟨1, 1, 0, some 0, 82800, .fresh, 1, 0, none⟩] 129600).2
        = List.countP (fun h : MemoryHealth => decide (h.next_review < 129600 - 86400))
            [⟨1, 1, 0, some 0, 82800, .fresh, 1, 0, none⟩]) := by
  decide

/-- C9 amended: in `get_memory_health_dashboard`, `overdue_reviews` counts
exactly the tracked items with `next_review` strictly before the start of
`now`'s UTC calendar day (equivalently: due, but on an earlier calendar date),
and `reviews_due_today` counts exactly the items with
`start_of_today ≤ next_review ≤ now` (due, on today's calendar date) — the
code partitions due items by calendar date, not by the 24-hour rule
`next_review < now - 1 day`. -/
theorem dashboard_counts_by_calendar_day (healths : List MemoryHealth) (now : ℤ) :
    (dashboard_due_counts healths now).1
        = healths.countP
            (fun h => decide (86400 * dateOf now ≤ h.next_review ∧ h.next_review ≤ now))
    ∧ (dashboard_due_counts healths now).2
        = healths.countP
            (fun h => decide (h.next_review < 86400 * dateOf now)) := by
  unfold dashboard_due_counts
  rw [dashboard_foldl_eq]
  constructor
  · simp only [Nat.zero_add]
    apply List.countP_congr
    intro h _
    simp only [decide_eq_true_eq]
    exact code_due_today_iff h.next_review now
  · simp only [Nat.zero_add]
    apply List.countP_congr
    intro h _
    simp only [decide_eq_true_eq]
    exact code_overdue_iff h.next_review now

/-! ### C10: `get_due_reviews` and the `include_overdue` flag -/

/-- The priority score computed inside `get_due_reviews`:
`importance*0.4 + min(overdue_days/7, 1)*0.4 + (1 - retention)*0.2`. -/
noncomputable def duePriority (h : MemoryHealth) (now : ℤ) : ℝ :=
  (h.importance : ℝ) * (2/5)
    + min (((now - h.next_review).fdiv 86400 : ℝ) / 7) 1 * (2/5)
    + (1 - calculate_retention_score h now) * (1/5)

/-- One entry of the list `get_due_reviews` returns; `α` is the payload type of
the vector-store record (`title`, `content`, ... — opaque to the algorithm). -/
structure DueEntry (α : Type) where
  memory_id : ℕ
  payload : α
  health : MemoryHealth
  days_overdue : ℤ
  priority_score : ℝ

/-- `SpacedRepetitionService.get_due_reviews`: select the tracked items with
`is_due or (include_overdue and is_overdue)`, drop the ones the vector store
cannot find (`getMem` models `qdrant_service.get_memory`), attach the priority
score, sort by priority descending (stable) and truncate to `limit`. -/
noncomputable def get_due_reviews {α : Type} (store : List (ℕ × MemoryHealth))
    (getMem : ℕ → Option α) (now : ℤ) (limit : ℕ) (include_overdue : Bool) :
    List (DueEntry α) :=
  let due_memories := store.filterMap (fun p =>
    if p.2.next_review ≤ now ∨ (include_overdue = true ∧ p.2.next_review < now - 86400) then
      match getMem p.1 with
      | some payload =>
          some { memory_id := p.1
                 payload := payload
                 health := p.2
                 days_overdue := max 0 ((now - p.2.next_review).fdiv 86400)
                 priority_score := duePriority p.2 now }
      | none => none
    else none)
  (due_memories.mergeSort
    (fun a b => decide (b.priority_score ≤ a.priority_score))).take limit

/-- C10: the `include_overdue` flag has no observable effect — every overdue
item (`next_review < now - 1 day`) is already due (`next_review ≤ now`), so the
selection condition `is_due or (include_overdue and is_overdue)` collapses to
`is_due` and both flag values return the same list, for every store, lookup
function, time and limit. -/
theorem include_overdue_no_effect {α : Type} (store : List (ℕ × MemoryHealth))
    (getMem : ℕ → Option α) (now : ℤ) (limit : ℕ) :
    get_due_reviews store getMem now limit true
      = get_due_reviews store getMem now limit false := by
  simp only [get_due_reviews]
  congr 1
  congr 1
  apply List.filterMap_congr
  intro p _
  refine if_congr ?_ rfl rfl
  constructor
  · rintro (hd | ⟨_, hov⟩)
    · exact Or.inl hd
    · exact Or.inl (by omega)
  · rintro (hd | ⟨hfa, _⟩)
    · exact Or.inl hd
    · simp at hfa

/-! ### C3: temporal decay reorders but never changes the candidate set -/

/-- One raw search candidate as handled by `SearchService`: the vector-store
id, the (mutable) fused score and the optional `created_at` payload field
(`none` models both a missing and an unparseable timestamp, which the code
skips with `continue`). -/
structure SearchHit where
  id : ℕ
  score : ℝ
  created_at : Option ℤ

/-- The loop body of `SearchService._apply_temporal_decay`: a candidate with a
`created_at` has its score multiplied by
`0.5 + 0.5 * exp(-age_days * decay_factor / 30)`; one without is left alone. -/
noncomputable def decayBoost (decay_factor : ℝ) (now : ℤ) (r : SearchHit) : SearchHit :=
  match r.created_at with
  | none => r
  | some c =>
    { r with score := r.score
        * (1/2 + 1/2 * Real.exp (-(((now - c).fdiv 86400 : ℤ) : ℝ) * decay_factor / 30)) }

/-- `SearchService._apply_temporal_decay`: rescale every candidate, then
re-sort the whole list by adjusted score, descending. -/
noncomputable def apply_temporal_decay (results : List SearchHit)
    (decay_factor : ℝ) (now : ℤ) : List SearchHit :=
  (results.map (decayBoost decay_factor now)).mergeSort
    (fun a b => decide (b.score ≤ a.score))

theorem decayBoost_id (decay_factor : ℝ) (now : ℤ) (r : SearchHit) :
    (decayBoost decay_factor now r).id = r.id := by
  rcases r with ⟨i, s, co⟩
  cases co <;> rfl

/-- C3: temporal-decay boosting only reorders the candidates. The list of
candidate ids after `_apply_temporal_decay` is a permutation of the input ids
(so, before truncation to `limit`, the candidate set is the same with
`temporal_boost` on or off); the output is sorted descending by adjusted score;
and every candidate with a `created_at` appears in the output with its score
multiplied by `0.5 + 0.5 * exp(-age_days * decay_rate / 30)`. -/
theorem temporal_decay_permutes_ids (results : List SearchHit)
    (decay_factor : ℝ) (now : ℤ) :
    ((apply_temporal_decay results decay_factor now).map SearchHit.id).Perm
        (results.map SearchHit.id)
    ∧ List.Pairwise (fun a b => b.score ≤ a.score)
        (apply_temporal_decay results decay_factor now)
    ∧ ∀ r ∈ results, ∀ c, r.created_at = some c →
        ∃ rb ∈ apply_temporal_decay results decay_factor now,
          rb.id = r.id
          ∧ rb.score = r.score
              * (1/2 + 1/2 * Real.exp (-(((now - c).fdiv 86400 : ℤ) : ℝ) * decay_factor / 30)) := by
  refine ⟨?_, ?_, ?_⟩
  · have h1 := (List.mergeSort_perm (results.map (decayBoost decay_factor now))
      (fun a b => decide (b.score ≤ a.score))).map SearchHit.id
    rw [List.map_map] at h1
    have h3 : results.map (SearchHit.id ∘ decayBoost decay_factor now)
        = results.map SearchHit.id :=
      List.map_congr_left (fun r _ => decayBoost_id decay_factor now r)
    unfold apply_temporal_decay
    rwa [h3] at h1
  · have hsorted := @List.sorted_mergeSort SearchHit
      (fun a b : SearchHit => decide (b.score ≤ a.score))
      (fun a b c hab hbc => by
        simp only [decide_eq_true_eq] at *
        linarith)
      (fun a b => by
        simp only [Bool.or_eq_true, decide_eq_true_eq]
        exact le_total b.score a.score)
      (results.map (decayBoost decay_factor now))
    exact hsorted.imp (fun hab => by simpa using hab)
  · intro r hr c hc
    refine ⟨decayBoost decay_factor now r,
      (List.mergeSort_perm _ _).mem_iff.mpr
        (List.mem_map_of_mem (decayBoost decay_factor now) hr),
      decayBoost_id decay_factor now r, ?_⟩
    unfold decayBoost
    rw [hc]

/-- Witness for C3 at a concrete input: a single candidate with `created_at`
present is rescored by the decay formula and kept in the output. -/
theorem temporal_decay_permutes_ids_witness :
    ∃ rb ∈ apply_temporal_decay [⟨0, 1, some 0⟩] 0 0,
      rb.id = (⟨0, 1, some 0⟩ : SearchHit).id
      ∧ rb.score = (⟨0, 1, some 0⟩ : SearchHit).score
          * (1/2 + 1/2 * Real.exp (-((((0:ℤ) - 0).fdiv 86400 : ℤ) : ℝ) * 0 / 30)) :=
  (temporal_decay_permutes_ids [⟨0, 1, some 0⟩] 0 0).2.2
    ⟨0, 1, some 0⟩ (List.mem_cons_self _ _) 0 rfl

/-! ### C5: cross-encoder reranking blend and graceful failure -/

/-- The per-candidate blend of `SearchService._rerank`:
`final = 0.3*original + 0.7*clamp01((cross_score + 10) / 20)`. -/
noncomputable def rerankBlend (r : SearchHit) (cross_score : ℝ) : SearchHit :=
  { r with score := 3/10 * r.score + 7/10 * max 0 (min 1 ((cross_score + 10) / 20)) }

/-- `SearchService._rerank`: `cross_scores = none` models the guard paths and
the `except` path (reranker missing, or `predict`/indexing raised) — all of
which return `results[:top_k]`; `some scores` models a successful `predict`,
after which every candidate is blended, the list re-sorted descending and
truncated to `top_k`. `search` passes `top_k = query.limit`. -/
noncomputable def rerank (results : List SearchHit) (cross_scores : Option (List ℝ))
    (top_k : ℕ) : List SearchHit :=
  match cross_scores with
  | none => results.take top_k
  | some scores =>
    ((results.zipWith rerankBlend scores).mergeSort
      (fun a b => decide (b.score ≤ a.score))).take top_k

/-- C5: when reranking applies (a score per candidate), each candidate's final
score is `0.3*original + 0.7*clamp01((cross+10)/20)` and the output is a
truncation to `limit` of the blended candidates re-sorted descending; when the
cross-encoder fails (or is absent), `rerank` returns the pre-rerank candidates
truncated to `limit` instead of raising. -/
theorem rerank_blend_and_graceful :
    (∀ (results : List SearchHit) (top_k : ℕ),
        rerank results none top_k = results.take top_k)
    ∧ (∀ (results : List SearchHit) (scores : List ℝ) (top_k : ℕ),
        scores.length = results.length →
        (∀ p ∈ results.zip scores,
            (rerankBlend p.1 p.2).score
              = 3/10 * p.1.score + 7/10 * max 0 (min 1 ((p.2 + 10) / 20)))
        ∧ ∃ l, rerank results (some scores) top_k = l.take top_k
            ∧ l.Perm (results.zipWith rerankBlend scores)
            ∧ List.Pairwise (fun a b => b.score ≤ a.score) l) := by
  constructor
  · intro results top_k
    rfl
  · intro results scores top_k _
    constructor
    · intro p _
      rfl
    · refine ⟨(results.zipWith rerankBlend scores).mergeSort
        (fun a b => decide (b.score ≤ a.score)), rfl,
        List.mergeSort_perm _ _, ?_⟩
      have hsorted := @List.sorted_mergeSort SearchHit
        (fun a b : SearchHit => decide (b.score ≤ a.score))
        (fun a b c hab hbc => by
          simp only [decide_eq_true_eq] at *
          linarith)
        (fun a b => by
          simp only [Bool.or_eq_true, decide_eq_true_eq]
          exact le_total b.score a.score)
        (results.zipWith rerankBlend scores)
      exact hsorted.imp (fun hab => by simpa using hab)

/-- Witness for C5 at concrete inputs: with two candidates, the failure path
returns the first candidate (truncation to limit 1), and a successful rerank
with scores `[0, 5]` blends, sorts and truncates. -/
theorem rerank_blend_and_graceful_witness :
    rerank [⟨0, 1, none⟩, ⟨1, 0, none⟩] none 1 = List.take 1 [⟨0, 1, none⟩, ⟨1, 0, none⟩]
    ∧ (rerankBlend ⟨0, 1, none⟩ 0).score
        = 3/10 * (⟨0, 1, none⟩ : SearchHit).score + 7/10 * max 0 (min 1 (((0:ℝ) + 10) / 20))
    ∧ ∃ l, rerank [⟨0, 1, none⟩, ⟨1, 0, none⟩] (some [0, 5]) 1 = l.take 1
        ∧ l.Perm (List.zipWith rerankBlend [⟨0, 1, none⟩, ⟨1, 0, none⟩] [0, 5])
        ∧ List.Pairwise (fun a b => b.score ≤ a.score) l :=
  ⟨rerank_blend_and_graceful.1 [⟨0, 1, none⟩, ⟨1, 0, none⟩] 1,
   (rerank_blend_and_graceful.2 [⟨0, 1, none⟩, ⟨1, 0, none⟩] [0, 5] 1 rfl).1
     (⟨0, 1, none⟩, 0) (List.mem_cons_self _ _),
   (rerank_blend_and_graceful.2 [⟨0, 1, none⟩, ⟨1, 0, none⟩] [0, 5] 1 rfl).2⟩

/-! ### C6: sparse vector generation (`EmbeddingService.generate_sparse_vector`) -/

def isLowerAlpha (c : Char) : Bool := 'a' ≤ c && c ≤ 'z'

/-- A regex word character (`\w` over the ASCII inputs the tokenizer handles):
letters, digits or underscore. -/
def isWordChar (c : Char) : Bool := c.isAlphanum || c = '_'

/-- State of the scan implementing `re.findall(r'\b[a-z]+\b', text)`:
whether the previous character was a word character, the current `[a-z]+` run,
whether that run started at a `\b` boundary, and the accepted tokens. -/
structure TokState where
  prevWord : Bool
  run : List Char
  startOK : Bool
  acc : List (List Char)

def tokFold (s : TokState) (c : Char) : TokState :=
  if isLowerAlpha c then
    if s.run.isEmpty then
      { s with run := [c], startOK := !s.prevWord, prevWord := true }
    else
      { s with run := s.run ++ [c], prevWord := true }
  else
    { prevWord := isWordChar c
      run := []
      startOK := true
      acc := if !s.run.isEmpty && s.startOK && !isWordChar c then s.acc ++ [s.run]
             else s.acc }

/-- `re.findall(r'\b[a-z]+\b', text)`: the maximal lowercase-alphabetic runs
whose neighbours on both sides are not word characters. -/
def pyFindTokens (text : String) : List String :=
  let s := text.data.foldl tokFold ⟨false, [], true, []⟩
  let acc := if !s.run.isEmpty && s.startOK then s.acc ++ [s.run] else s.acc
  acc.map (fun cs => String.mk cs)

/-- The stopword set of `EmbeddingService._tokenize`. -/
def sparseStopwords : List String :=
  ["the", "a", "an", "and", "or", "but", "in", "on", "at", "to", "for",
   "of", "with", "by", "from", "up", "about", "into", "through", "during",
   "is", "are", "was", "were", "be", "been", "being", "have", "has", "had",
   "do", "does", "did", "will", "would", "could", "should", "may", "might",
   "this", "that", "these", "those", "it", "its", "as", "if", "then"]

/-- `EmbeddingService._tokenize`: lowercase, extract `\b[a-z]+\b` runs, drop
stopwords and tokens of length ≤ 2. -/
def sparseTokenize (text : String) : List String :=
  (pyFindTokens text.toLower).filter
    (fun t => !sparseStopwords.contains t && decide (2 < t.length))

/-- BM25 parameters fixed in `EmbeddingService.__init__`: `k1 = 1.5`,
`b = 0.75`, `avg_doc_length = 500`. -/
def sparseK1 : ℚ := 3/2

def sparseB : ℚ := 3/4

def sparseAvgDocLength : ℚ := 500

/-- The BM25 term-frequency saturation weight
`tf' = freq*(k1+1) / (freq + k1*(1 - b + b*doclen/avgdoclen))`. -/
def bm25Weight (freq doclen : ℕ) : ℚ :=
  ((freq : ℚ) * (sparseK1 + 1))
    / ((freq : ℚ) + sparseK1 * (1 - sparseB + sparseB * (doclen : ℚ) / sparseAvgDocLength))

/-- `abs(hash(term) % 30000)`: Python's `%` with a positive modulus is `emod`,
already non-negative, and `abs` keeps it unchanged. -/
def termIndex (hash : String → ℤ) (t : String) : ℤ := |hash t % 30000|

/-- The dict update `index_values[term_idx] += tf_component` (insertion-ordered
association list: an existing key is updated in place, a new key is appended). -/
def addWeight : List (ℤ × ℚ) → ℤ → ℚ → List (ℤ × ℚ)
  | [], i, w => [(i, w)]
  | p :: m, i, w => if p.1 = i then (p.1, p.2 + w) :: m else p :: addWeight m i w

/-- The distinct terms in first-occurrence order — the iteration order of
`Counter(tokens).items()`. -/
def uniqueKeepFirst (l : List String) : List String :=
  l.foldl (fun acc t => if t ∈ acc then acc else acc ++ [t]) []

/-- The `index_values` dict after processing every term of `tf.items()`. -/
def sparseIndexValues (hash : String → ℤ) (tokens : List String) : List (ℤ × ℚ) :=
  (uniqueKeepFirst tokens).foldl
    (fun m t => addWeight m (termIndex hash t) (bm25Weight (tokens.count t) tokens.length))
    []

/-- `sorted(index_values.items())`: keys are distinct, so sorting pairs
lexicographically is sorting by index. -/
def sparseSortedItems (hash : String → ℤ) (tokens : List String) : List (ℤ × ℚ) :=
  (sparseIndexValues hash tokens).mergeSort (fun a b => decide (a.1 ≤ b.1))

/-- `EmbeddingService.generate_sparse_vector`, parameterized by the string hash
(Python's process-seeded `hash`): the `{indices, values}` pair. -/
def generate_sparse_vector (hash : String → ℤ) (text : String) : List ℤ × List ℚ :=
  if text.trim = "" then ([], [])
  else if sparseTokenize text = [] then ([], [])
  else ((sparseSortedItems hash (sparseTokenize text)).map Prod.fst,
        (sparseSortedItems hash (sparseTokenize text)).map Prod.snd)

/-- The total weight an association list assigns to an index (the sum over its
entries with that key). -/
def keyWeight (m : List (ℤ × ℚ)) (i : ℤ) : ℚ :=
  ((m.filter (fun p => p.1 = i)).map Prod.snd).sum

theorem keyWeight_nil (i : ℤ) : keyWeight [] i = 0 := rfl

theorem keyWeight_cons (q : ℤ × ℚ) (l : List (ℤ × ℚ)) (j : ℤ) :
    keyWeight (q :: l) j = (if q.1 = j then q.2 else 0) + keyWeight l j := by
  simp only [keyWeight, List.filter_cons]
  by_cases hq : q.1 = j
  · simp [hq]
  · simp [hq]

theorem addWeight_keys (i : ℤ) (w : ℚ) :
    ∀ m : List (ℤ × ℚ),
      (addWeight m i w).map Prod.fst
        = if i ∈ m.map Prod.fst then m.map Prod.fst else m.map Prod.fst ++ [i] := by
  intro m
  induction m with
  | nil => simp [addWeight]
  | cons p m ih =>
    by_cases hp : p.1 = i
    · rw [show addWeight (p :: m) i w = (p.1, p.2 + w) :: m from by simp [addWeight, hp]]
      rw [if_pos (by simp [hp.symm])]
      simp
    · rw [show addWeight (p :: m) i w = p :: addWeight m i w from by simp [addWeight, hp]]
      simp only [List.map_cons, ih]
      by_cases hm : i ∈ m.map Prod.fst
      · rw [if_pos hm, if_pos (List.mem_cons_of_mem _ hm)]
      · rw [if_neg hm,
          if_neg (by simp only [List.mem_cons]; rintro (h | h); exact hp h.symm; exact hm h)]
        simp

theorem addWeight_nodup (i : ℤ) (w : ℚ) (m : List (ℤ × ℚ))
    (h : (m.map Prod.fst).Nodup) : ((addWeight m i w).map Prod.fst).Nodup := by
  rw [addWeight_keys]
  by_cases hm : i ∈ m.map Prod.fst
  · rwa [if_pos hm]
  · rw [if_neg hm]
    simp [List.nodup_append, h, hm]

theorem keyWeight_addWeight (i : ℤ) (w : ℚ) (j : ℤ) :
    ∀ m : List (ℤ × ℚ),
      keyWeight (addWeight m i w) j = keyWeight m j + (if j = i then w else 0) := by
  intro m
  induction m with
  | nil =>
    show keyWeight [(i, w)] j = keyWeight [] j + _
    rw [keyWeight_cons, keyWeight_nil]
    by_cases hij : i = j
    · rw [if_pos hij, if_pos hij.symm]
      ring
    · rw [if_neg hij, if_neg (fun h : j = i => hij h.symm)]
  | cons p m ih =>
    by_cases hp : p.1 = i
    · rw [show addWeight (p :: m) i w = (p.1, p.2 + w) :: m from by simp [addWeight, hp]]
      rw [keyWeight_cons, keyWeight_cons]
      by_cases hj : p.1 = j
      · have hji : j = i := by rw [← hj, hp]
        rw [if_pos hj, if_pos hj, if_pos hji]
        ring
      · have hji : ¬ (j = i) := by rw [← hp]; exact fun h => hj h.symm
        rw [if_neg hj, if_neg hj, if_neg hji]
        ring
    · rw [show addWeight (p :: m) i w = p :: addWeight m i w from by simp [addWeight, hp]]
      rw [keyWeight_cons, keyWeight_cons, ih]
      ring

theorem keyWeight_of_not_mem (j : ℤ) :
    ∀ m : List (ℤ × ℚ), j ∉ m.map Prod.fst → keyWeight m j = 0 := by
  intro m
  induction m with
  | nil => intro _; rfl
  | cons q l ih =>
    intro h
    rw [keyWeight_cons]
    have hq : ¬ (q.1 = j) := fun hh => h (by simp [hh])
    rw [if_neg hq, ih (fun hm => h (List.mem_cons_of_mem _ hm))]
    ring

theorem snd_eq_keyWeight (p : ℤ × ℚ) :
    ∀ m : List (ℤ × ℚ), (m.map Prod.fst).Nodup → p ∈ m → p.2 = keyWeight m p.1 := by
  intro m
  induction m with
  | nil => intro _ hp; cases hp
  | cons q l ih =>
    intro hnd hp
    have hnd' : (q.1 :: l.map Prod.fst).Nodup := by simpa using hnd
    rw [keyWeight_cons]
    rcases List.mem_cons.mp hp with rfl | hp'
    · rw [if_pos rfl, keyWeight_of_not_mem p.1 l (List.nodup_cons.mp hnd').1]
      ring
    · have hq : ¬ (q.1 = p.1) := by
        intro hh
        exact (List.nodup_cons.mp hnd').1 (hh ▸ List.mem_map_of_mem Prod.fst hp')
      rw [if_neg hq]
      have := ih ((List.nodup_cons.mp hnd').2) hp'
      linarith [this]

theorem foldl_addWeight_spec (wf : String → ℚ) (idx : String → ℤ) :
    ∀ (ts : List String) (m : List (ℤ × ℚ)), (m.map Prod.fst).Nodup →
      ((ts.foldl (fun acc t => addWeight acc (idx t) (wf t)) m).map Prod.fst).Nodup
      ∧ ∀ j, keyWeight (ts.foldl (fun acc t => addWeight acc (idx t) (wf t)) m) j
          = keyWeight m j + ((ts.filter (fun t => idx t = j)).map wf).sum := by
  intro ts
  induction ts with
  | nil =>
    intro m hm
    exact ⟨hm, fun j => by simp⟩
  | cons t ts ih =>
    intro m hm
    rw [List.foldl_cons]
    obtain ⟨hnd, hkw⟩ := ih (addWeight m (idx t) (wf t)) (addWeight_nodup _ _ _ hm)
    refine ⟨hnd, fun j => ?_⟩
    rw [hkw j, keyWeight_addWeight]
    have hfc : List.filter (fun t2 => decide (idx t2 = j)) (t :: ts)
        = if idx t = j then t :: List.filter (fun t2 => decide (idx t2 = j)) ts
          else List.filter (fun t2 => decide (idx t2 = j)) ts := by
      simp [List.filter_cons]
    by_cases hj : idx t = j
    · rw [hfc, if_pos hj, if_pos hj.symm]
      simp only [List.map_cons, List.sum_cons]
      ring
    · rw [hfc, if_neg hj, if_neg (fun h : j = idx t => hj h.symm)]
      ring

theorem sparseIndexValues_facts (hash : String → ℤ) (tokens : List String) :
    ((sparseIndexValues hash tokens).map Prod.fst).Nodup
    ∧ ∀ j, keyWeight (sparseIndexValues hash tokens) j
        = (((uniqueKeepFirst tokens).filter (fun t => termIndex hash t = j)).map
            (fun t => bm25Weight (tokens.count t) tokens.length)).sum := by
  obtain ⟨hnd, hkw⟩ := foldl_addWeight_spec
    (fun t => bm25Weight (tokens.count t) tokens.length) (termIndex hash)
    (uniqueKeepFirst tokens) [] (by simp)
  refine ⟨hnd, fun j => ?_⟩
  have h := hkw j
  rw [keyWeight_nil, zero_add] at h
  exact h

theorem sparseSortedItems_facts (hash : String → ℤ) (tokens : List String) :
    List.Chain' (· < ·) ((sparseSortedItems hash tokens).map Prod.fst)
    ∧ ∀ p ∈ sparseSortedItems hash tokens,
        p.2 = (((uniqueKeepFirst tokens).filter (fun t => termIndex hash t = p.1)).map
            (fun t => bm25Weight (tokens.count t) tokens.length)).sum := by
  obtain ⟨hnd, hkw⟩ := sparseIndexValues_facts hash tokens
  have hperm : (sparseSortedItems hash tokens).Perm (sparseIndexValues hash tokens) :=
    List.mergeSort_perm _ _
  have hndS : ((sparseSortedItems hash tokens).map Prod.fst).Nodup :=
    (hperm.map Prod.fst).nodup_iff.mpr hnd
  constructor
  · have hsorted := @List.sorted_mergeSort (ℤ × ℚ)
      (fun a b : ℤ × ℚ => decide (a.1 ≤ b.1))
      (fun a b c hab hbc => by
        simp only [decide_eq_true_eq] at *
        omega)
      (fun a b => by
        simp only [Bool.or_eq_true, decide_eq_true_eq]
        omega)
      (sparseIndexValues hash tokens)
    have hle : List.Pairwise (fun a b : ℤ × ℚ => a.1 ≤ b.1) (sparseSortedItems hash tokens) :=
      hsorted.imp (fun hab => by simpa using hab)
    have hlemap : List.Pairwise (· ≤ ·) ((sparseSortedItems hash tokens).map Prod.fst) :=
      List.pairwise_map.mpr hle
    have hnemap : List.Pairwise (· ≠ ·) ((sparseSortedItems hash tokens).map Prod.fst) :=
      hndS
    exact ((hlemap.and hnemap).imp (fun h => lt_of_le_of_ne h.1 h.2)).chain'
  · intro p hp
    have h1 := snd_eq_keyWeight p (sparseIndexValues hash tokens) hnd (hperm.mem_iff.mp hp)
    rw [h1, hkw p.1]

/-- C6: `generate_sparse_vector` is deterministic (it is a pure function of the
hash and the text — two calls on identical input give identical output), its
indices are sorted strictly ascending (each index appears in a single entry),
and the value stored at each index is the sum of the BM25 weights of all
distinct terms hashing to that index — colliding terms are summed, never
overwritten. -/
theorem generate_sparse_vector_spec (hash : String → ℤ) (text : String) :
    generate_sparse_vector hash text = generate_sparse_vector hash text
    ∧ List.Chain' (· < ·) (generate_sparse_vector hash text).1
    ∧ (generate_sparse_vector hash text).2
        = (generate_sparse_vector hash text).1.map (fun i =>
            (((uniqueKeepFirst (sparseTokenize text)).filter
                (fun t => termIndex hash t = i)).map
              (fun t => bm25Weight ((sparseTokenize text).count t)
                (sparseTokenize text).length)).sum) := by
  by_cases h1 : text.trim = ""
  · refine ⟨rfl, ?_, ?_⟩ <;> simp [generate_sparse_vector, h1]
  · by_cases h2 : sparseTokenize text = []
    · refine ⟨rfl, ?_, ?_⟩ <;> simp [generate_sparse_vector, h1, h2]
    · have hfst : (generate_sparse_vector hash text).1
          = (sparseSortedItems hash (sparseTokenize text)).map Prod.fst := by
        simp [generate_sparse_vector, h1, h2]
      have hsnd : (generate_sparse_vector hash text).2
          = (sparseSortedItems hash (sparseTokenize text)).map Prod.snd := by
        simp [generate_sparse_vector, h1, h2]
      obtain ⟨hchain, hval⟩ := sparseSortedItems_facts hash (sparseTokenize text)
      refine ⟨rfl, ?_, ?_⟩
      · rw [hfst]
        exact hchain
      · rw [hfst, hsnd, List.map_map]
        apply List.map_congr_left
        intro p hp
        exact hval p hp
